import Mathlib

/-
Verification development for the repository proxy service (Go sources:
the final revision of the handler file, containing main/app/Repository/
RepositoryHandlers/List/query/queryCall, together with cache.go).

Shallow embedding conventions:
* Go `int` is modelled as `Int` (strconv.Atoi's 64-bit range check is kept
  explicitly where it matters).
* `time.Time` is modelled as an abstract integer instant; durations are
  integers counting nanoseconds, as in Go.
* The Go map `map[int]Repository` of the Cache is modelled as an
  association list in insertion order; the `ids` slice is a plain list.
  A nilable `map[int]bool` holding only `true` entries (the `seen` set and
  the `exclude` argument) is modelled as `Option (List Int)`.
* `rand.Intn n` is modelled by an externally supplied stream of naturals,
  reduced modulo `n`; every value of `rand.Intn n` is obtainable this way
  and every supplied value yields an in-range index.
* The concurrent collection loop of `List` is modelled as a small-step
  system over an explicit event schedule (worker emissions into the
  buffered channel, loop receipts, context expiry); an infeasible schedule
  (one no real execution can produce, e.g. a receive from an empty
  channel) makes the run evaluate to `none`.
-/

/-- String literals from the source are bound to names once. -/
def emptyStr : String := ""

def trueStr : String := "true"

def noReposMsg : String := "no repositories available"

def repoPath : String := "/repository?failRatio=0.7"

def failRatioQuery : String := "failRatio=0.7"

def reposField : String := "repositories"

def idField : String := "id"

def nameField : String := "name"

def fetchedAtField : String := "fetchedAt"

/-- Repository mirrors the Go struct: ID int, Name string, FetchedAt
time.Time (the instant is abstracted to an integer). -/
structure Repository where
  id : Int
  name : String
  fetchedAt : Int
  deriving DecidableEq

/-- Go zero value of Repository, produced by `var r Repository` or a map
miss. -/
instance : Inhabited Repository := ⟨⟨0, emptyStr, 0⟩⟩

/-- Cache state: the map from ID to Repository (association list in
insertion order) and the slice of IDs.  The RWMutex is not part of the
state; interleavings are modelled explicitly by the event schedules. -/
structure Cache where
  data : List (Int × Repository)
  ids : List Int
  deriving DecidableEq

/-- NewCache: empty map, nil ids slice. -/
def NewCache : Cache := ⟨[], []⟩

/-- Add puts another repository in the cache; it returns early (no
replacement) when the ID is already a key of the map, otherwise it stores
the record and appends the ID. -/
def Cache.Add (c : Cache) (r : Repository) : Cache :=
  if (c.data.lookup r.id).isSome = true then c
  else { data := c.data ++ [(r.id, r)], ids := c.ids ++ [r.id] }

/-- Cache size, `len(c.data)` on the Go map. -/
def Cache.size (c : Cache) : Nat := c.data.length

/-- The `available` slice computed inside GetRandom: all ids when exclude
is nil, otherwise the ids whose exclusion lookup is false. -/
def candidatesOf (c : Cache) (exclude : Option (List Int)) : List Int :=
  match exclude with
  | none => c.ids
  | some ex => c.ids.filter (fun id => !(ex.contains id))

/-- GetRandom picks the record at index `rand.Intn (len available)`; the
random draw is modelled by `k % available.length` where `k` is the
externally supplied random value.  An empty candidate slice yields the
error, as in the source. -/
def Cache.GetRandom (c : Cache) (exclude : Option (List Int)) (k : Nat) :
    Except String Repository :=
  let available := candidatesOf c exclude
  if h : available.length = 0 then
    Except.error noReposMsg
  else
    let id := available.get ⟨k % available.length, Nat.mod_lt k (Nat.pos_of_ne_zero h)⟩
    Except.ok ((c.data.lookup id).getD default)

/-- Go's `r.URL.Query().Get(key)` returns the empty string when the key is
absent; the query side is modelled as `Option String` per parameter. -/
def getQuery (q : Option String) : String := q.getD emptyStr

/-- Value of a decimal digit character, none for non-digits. -/
def digitVal (c : Char) : Option Nat :=
  if c.isDigit then some (c.toNat - 48) else none

/-- Decimal value of a nonempty all-digit character list. -/
def digitsVal (cs : List Char) : Option Nat :=
  match cs with
  | [] => none
  | _ =>
    cs.foldl
      (fun acc c =>
        match acc, digitVal c with
        | some n, some d => some (10 * n + d)
        | _, _ => none)
      (some 0)

def int64Max : Int := 9223372036854775807

def int64Min : Int := -9223372036854775808

/-- strconv.Atoi: optional sign, nonempty digit run, 64-bit range check;
`none` models a non-nil error. -/
def goAtoi (s : String) : Option Int :=
  let p : Bool × List Char :=
    match s.toList with
    | '-' :: rest => (true, rest)
    | '+' :: rest => (false, rest)
    | cs => (false, cs)
  match digitsVal p.2 with
  | none => none
  | some n =>
    let v : Int := if p.1 then -(n : Int) else (n : Int)
    if int64Min ≤ v ∧ v ≤ int64Max then some v else none

/-- The count parsed by List: Atoi of the `count` query value, 1 on
error (absent or unparsable). -/
def listCount (countQ : Option String) : Int :=
  (goAtoi (getQuery countQ)).getD 1

/-- 5 * time.Second in nanoseconds. -/
def fiveSecondsNs : Int := 5 * 1000000000

/-- The timeout parsed by List: time.ParseDuration of the `timeout` query
value, 5 seconds on error.  ParseDuration itself is Go library code, so it
enters the model as a parameter; the handler only inspects success or
failure of the parse. -/
def listTimeout (timeoutQ : Option String) (parseDuration : String → Option Int) : Int :=
  (parseDuration (getQuery timeoutQ)).getD fiveSecondsNs

/-- Deduplication flag: the `seen` map is constructed exactly when the
`unique` query value is the literal string true. -/
def uniqueOf (uniqueQ : Option String) : Bool :=
  getQuery uniqueQ == trueStr

/-- One observable event of the collection phase of List:
a worker sends a record into the buffered results channel (`emit`), the
loop receives the front of the channel (`deliver`), or the request context
expires (`done`). -/
inductive ChEvent where
  | emit (r : Repository)
  | deliver
  | done
  deriving DecidableEq

/-- The mutable state of one List call during its collection loop.
`pending` counts spawned workers that have not yet emitted (each worker
emits at most once); `chan` is the contents of the buffered results
channel; `stopped` records that the labelled loop has been broken, by
ctx.Done or by reaching the count. -/
structure LoopState where
  repos : List Repository
  seen : Option (List Int)
  cache : Cache
  pending : Nat
  chan : List Repository
  stopped : Bool
  deriving DecidableEq

/-- State at the top of the collection loop: empty result slice, seen map
constructed only in unique mode, the process-global cache as it stands,
`count` workers spawned (none when count ≤ 0, as the spawn loop guard is
`gid < count`), empty channel. -/
def initState (c₀ : Cache) (unique : Bool) (count : Int) : LoopState :=
  { repos := []
    seen := if unique = true then some [] else none
    cache := c₀
    pending := count.toNat
    chan := []
    stopped := false }

/-- One step of the collection phase.  `emit r` is feasible only while
some worker may still emit and the channel buffer (capacity `count`) has
room; `deliver` replays the `case repo := <-ch` arm: a duplicate in unique
mode spawns one replacement worker and is dropped (before the Cache.Add),
otherwise the record is marked seen, added to the cache, appended, and the
loop breaks when the result reaches `count`. -/
def step (count : Int) (st : LoopState) (e : ChEvent) : Option LoopState :=
  match e with
  | ChEvent.emit r =>
    if st.pending = 0 then none
    else if st.chan.length < count.toNat then
      some { st with pending := st.pending - 1, chan := st.chan ++ [r] }
    else none
  | ChEvent.done => some { st with stopped := true }
  | ChEvent.deliver =>
    if st.stopped = true then some st
    else
      match st.chan with
      | [] => none
      | r :: rest =>
        match st.seen with
        | some l =>
          if l.contains r.id = true then
            some { st with chan := rest, pending := st.pending + 1 }
          else
            some { st with
              chan := rest
              seen := some (r.id :: l)
              cache := st.cache.Add r
              repos := st.repos ++ [r]
              stopped := (((st.repos ++ [r]).length : Int) == count) }
        | none =>
          some { st with
            chan := rest
            cache := st.cache.Add r
            repos := st.repos ++ [r]
            stopped := (((st.repos ++ [r]).length : Int) == count) }

/-- Run the collection loop over an event schedule; `none` marks an
infeasible schedule. -/
def collect (count : Int) : LoopState → List ChEvent → Option LoopState
  | st, [] => some st
  | st, e :: es =>
    match step count st e with
    | none => none
    | some st' => collect count st' es

/-- The backfill loop of List.  `fuel` is `count - len(repos)`, the number
of records still needed; `i` indexes the iteration (for the caller-context
check and the random stream); `cancel i = true` replays the caller's own
context being done at iteration `i`, upon which the handler returns with
no response (`none`).  A GetRandom failure ends backfill with the short
result; a success appends the record and, in unique mode, marks its ID
seen. -/
def backfillLoop (cache : Cache) (rand : Nat → Nat) (cancel : Nat → Bool) :
    Nat → Nat → List Repository → Option (List Int) →
    Option (List Repository × Option (List Int))
  | 0, _, repos, seen => some (repos, seen)
  | fuel + 1, i, repos, seen =>
    if cancel i = true then none
    else
      match cache.GetRandom seen (rand i) with
      | Except.error _ => some (repos, seen)
      | Except.ok r =>
        backfillLoop cache rand cancel fuel (i + 1) (repos ++ [r])
          (seen.map (fun l => r.id :: l))

/-- Outcome of one List call.  `panicked`: the handler hit a runtime panic
(Go's `make([]Repository, 0, count)` and `make(chan Repository, count)`
panic when count is negative); `aborted`: the caller's own context ended
during backfill and the handler returned without writing a response;
`responded`: the handler reached the serialization stage with the given
result list, the cache standing as given. -/
inductive ListResult where
  | panicked
  | aborted (cache : Cache)
  | responded (repos : List Repository) (cache : Cache)
  deriving DecidableEq

/-- The List handler on an already-parsed count and unique flag: allocate
(panicking on a negative count), run the collection loop to its break,
then backfill any shortfall from the cache.  `none` marks an infeasible or
incomplete schedule. -/
def runListC (c₀ : Cache) (count : Int) (unique : Bool) (events : List ChEvent)
    (rand : Nat → Nat) (cancel : Nat → Bool) : Option ListResult :=
  if count < 0 then some ListResult.panicked
  else
    match collect count (initState c₀ unique count) events with
    | none => none
    | some st =>
      if st.stopped = true then
        match backfillLoop st.cache rand cancel (count - (st.repos.length : Int)).toNat
            0 st.repos st.seen with
        | none => some (ListResult.aborted st.cache)
        | some p => some (ListResult.responded p.1 st.cache)
      else none

/-- The List handler from the raw query parameters. -/
def runList (c₀ : Cache) (countQ uniqueQ : Option String) (events : List ChEvent)
    (rand : Nat → Nat) (cancel : Nat → Bool) : Option ListResult :=
  runListC c₀ (listCount countQ) (uniqueOf uniqueQ) events rand cancel

/-- Records sent into the results channel by workers, in a given schedule. -/
def emittedOf (events : List ChEvent) : List Repository :=
  events.filterMap (fun e =>
    match e with
    | ChEvent.emit r => some r
    | _ => none)

/-- Minimal JSON value model for the response body. -/
inductive Json where
  | null
  | str (s : String)
  | num (n : Int)
  | arr (elems : List Json)
  | obj (fields : List (String × Json))

/-- Encoding of one Repository under its struct tags (the timestamp is the
abstract instant). -/
def encodeRepository (r : Repository) : Json :=
  Json.obj [(idField, Json.num r.id), (nameField, Json.str r.name),
    (fetchedAtField, Json.num r.fetchedAt)]

/-- The anonymous result struct of List: a single `repositories` field
holding the (non-nil) result slice, so an empty result encodes as an empty
array, never as null. -/
def listResponseJson (repos : List Repository) : Json :=
  Json.obj [(reposField, Json.arr (repos.map encodeRepository))]

/-- The final write of List: on json.Marshal success, status 200 with the
encoded body; on failure, http.Error with status 500 and no JSON body.
Marshal success is a parameter, since encoding/json is library code. -/
def writeListResponse (repos : List Repository) (marshalOk : Bool) : Nat × Option Json :=
  if marshalOk = true then (200, some (listResponseJson repos))
  else (500, none)

/-- Field lookup in a JSON object. -/
def Json.getField : Json → String → Option Json
  | Json.obj fields, k => fields.lookup k
  | _, _ => none

/-- The URL built by queryCall: the backend host plus the fixed path and
fault-injection query, with no per-request configuration. -/
def queryCallURL (codeHostURL : String) : String :=
  codeHostURL ++ repoPath

/-- Capacity of the semaphore channel created inside List:
`sem := make(chan struct\x7b\x7d, 10)`. -/
def semCap : Nat := 10

/-- Semaphore events across concurrently running List calls.  `req` names
the List invocation: the source allocates a fresh `sem` in every call to
List, so each invocation owns its own pool. -/
inductive SemEvent where
  | acquire (req : Nat)
  | release (req : Nat)
  deriving DecidableEq

/-- `held req` counts the permits of request `req` currently taken, i.e.
its upstream calls in flight (the worker holds the permit exactly for the
duration of queryCall).  An acquire is feasible while that request's own
buffered channel has room (capacity `semCap`); a release needs a held
permit. -/
def semStep (held : Nat → Nat) : SemEvent → Option (Nat → Nat)
  | SemEvent.acquire r =>
    if held r < semCap then
      some (fun q => if q = r then held q + 1 else held q)
    else none
  | SemEvent.release r =>
    if 0 < held r then
      some (fun q => if q = r then held q - 1 else held q)
    else none

/-- Run a feasible interleaving of semaphore operations. -/
def semRun : (Nat → Nat) → List SemEvent → Option (Nat → Nat)
  | held, [] => some held
  | held, e :: es =>
    match semStep held e with
    | none => none
    | some held' => semRun held' es

/-- No permits held before any request runs. -/
def semInit : Nat → Nat := fun _ => 0

/-- Interleaving in which two concurrent List calls each fill their own
pool of 10 permits: 20 upstream calls are then simultaneously in flight. -/
def semTrace20 : List SemEvent :=
  List.replicate 10 (SemEvent.acquire 0) ++ List.replicate 10 (SemEvent.acquire 1)

/-- Lookup distributes over append of association lists. -/
theorem lookupAppend (l₁ l₂ : List (Int × Repository)) (k : Int) :
    (l₁ ++ l₂).lookup k =
      match l₁.lookup k with
      | some v => some v
      | none => l₂.lookup k := by
  induction l₁ with
  | nil => simp [List.lookup]
  | cons a tl ih =>
    obtain ⟨a₁, a₂⟩ := a
    simp only [List.cons_append, List.lookup]
    cases hk : (k == a₁) <;> simp [hk, ih]

/-- Successful lookup exhibits a member pair. -/
theorem lookup_mem_pair (l : List (Int × Repository)) (k : Int) (v : Repository)
    (h : l.lookup k = some v) : (k, v) ∈ l := by
  induction l with
  | nil => simp [List.lookup] at h
  | cons a tl ih =>
    obtain ⟨a₁, a₂⟩ := a
    simp only [List.lookup] at h
    cases hk : (k == a₁) with
    | true =>
      rw [hk] at h
      obtain rfl : a₂ = v := by simpa using h
      have hk' : k = a₁ := eq_of_beq hk
      subst hk'
      exact List.mem_cons_self _ _
    | false =>
      rw [hk] at h
      exact List.mem_cons_of_mem _ (ih (by simpa using h))

/-- Lookup succeeds exactly on the keys of the association list. -/
theorem lookup_isSome_iff_keys (l : List (Int × Repository)) (k : Int) :
    (l.lookup k).isSome = true ↔ k ∈ l.map Prod.fst := by
  induction l with
  | nil => simp [List.lookup]
  | cons a tl ih =>
    obtain ⟨a₁, a₂⟩ := a
    simp only [List.lookup, List.map_cons, List.mem_cons]
    cases hk : (k == a₁) with
    | true =>
      have hk' : k = a₁ := eq_of_beq hk
      simp [hk']
    | false =>
      have hk' : ¬k = a₁ := beq_eq_false_iff_ne.mp hk
      simp [hk', ih]

/-- Well-formedness the Cache maintains: the map's keys, in insertion
order, are exactly the ids slice; no id repeats; every record sits under
its own ID. -/
def CacheWF (c : Cache) : Prop :=
  c.data.map Prod.fst = c.ids ∧ c.ids.Nodup ∧ ∀ p ∈ c.data, p.2.id = p.1

instance (c : Cache) : Decidable (CacheWF c) := by
  unfold CacheWF
  infer_instance

theorem CacheWF.mem_ids_iff {c : Cache} (hW : CacheWF c) (k : Int) :
    k ∈ c.ids ↔ (c.data.lookup k).isSome = true := by
  rw [← hW.1, lookup_isSome_iff_keys]

theorem CacheWF.lookup_rec_id {c : Cache} (hW : CacheWF c) {k : Int} {r : Repository}
    (h : c.data.lookup k = some r) : r.id = k :=
  hW.2.2 (k, r) (lookup_mem_pair _ _ _ h)

/-- Add on an already-present ID is the identity (the early return). -/
theorem Add_of_present {c : Cache} {r : Repository}
    (h : (c.data.lookup r.id).isSome = true) : c.Add r = c := by
  simp [Cache.Add, h]

/-- Add never disturbs an existing binding. -/
theorem Add_lookup_preserve {c : Cache} (r : Repository) {k : Int} {v : Repository}
    (h : c.data.lookup k = some v) : (c.Add r).data.lookup k = some v := by
  unfold Cache.Add
  split
  · exact h
  · simp only [lookupAppend, h]

/-- After Add, the added ID is bound. -/
theorem Add_lookup_self (c : Cache) (r : Repository) :
    ((c.Add r).data.lookup r.id).isSome = true := by
  unfold Cache.Add
  split
  next hp => exact hp
  next hp =>
    have hnone : c.data.lookup r.id = none := Option.not_isSome_iff_eq_none.mp hp
    simp [lookupAppend, hnone, List.lookup]

/-- Add of a fresh ID binds it to the given record. -/
theorem Add_lookup_absent {c : Cache} {r : Repository}
    (h : c.data.lookup r.id = none) : (c.Add r).data.lookup r.id = some r := by
  unfold Cache.Add
  split
  next hp => rw [h] at hp; simp at hp
  next hp => simp [lookupAppend, h, List.lookup]

/-- Add preserves cache well-formedness. -/
theorem Add_WF {c : Cache} (hW : CacheWF c) (r : Repository) : CacheWF (c.Add r) := by
  unfold Cache.Add
  split
  next hp => exact hW
  next hp =>
    have hnone : c.data.lookup r.id = none := Option.not_isSome_iff_eq_none.mp hp
    refine ⟨?_, ?_, ?_⟩
    · simp [hW.1]
    · have hnm : r.id ∉ c.ids := by
        rw [hW.mem_ids_iff]
        simp [hnone]
      simp [List.nodup_append, hW.2.1, hnm]
    · intro p hp'
      rcases List.mem_append.mp hp' with h1 | h1
      · exact hW.2.2 p h1
      · simp only [List.mem_singleton] at h1
        rw [h1]

/-- Candidates are drawn from the ids slice. -/
theorem candidates_subset {c : Cache} {ex : Option (List Int)} {id : Int}
    (h : id ∈ candidatesOf c ex) : id ∈ c.ids := by
  cases ex with
  | none => exact h
  | some l => exact (List.mem_filter.mp h).1

/-- A candidate never sits in the exclusion set. -/
theorem candidates_excluded {c : Cache} {l : List Int} {id : Int}
    (h : id ∈ candidatesOf c (some l)) : l.contains id = false := by
  have h2 := (List.mem_filter.mp h).2
  simpa using h2

/-- Candidates inherit the ids slice's freedom from duplicates. -/
theorem candidates_nodup {c : Cache} (hW : CacheWF c) (ex : Option (List Int)) :
    (candidatesOf c ex).Nodup := by
  cases ex with
  | none => exact hW.2.1
  | some l => exact List.Nodup.filter _ hW.2.1

/-- GetRandom on an empty candidate slice is the fixed error. -/
theorem getRandom_error_of_empty (c : Cache) (ex : Option (List Int)) (k : Nat)
    (h : candidatesOf c ex = []) : c.GetRandom ex k = Except.error noReposMsg := by
  have h0 : (candidatesOf c ex).length = 0 := by simp [h]
  simp [Cache.GetRandom, h0]

/-- GetRandom on a nonempty candidate slice succeeds. -/
theorem getRandom_ok_of_nonempty (c : Cache) (ex : Option (List Int)) (k : Nat)
    (h : candidatesOf c ex ≠ []) : ∃ r, c.GetRandom ex k = Except.ok r := by
  have h0 : ¬(candidatesOf c ex).length = 0 := by
    simpa [List.length_eq_zero] using h
  refine ⟨(c.data.lookup ((candidatesOf c ex).get
      ⟨k % (candidatesOf c ex).length, Nat.mod_lt k (Nat.pos_of_ne_zero h0)⟩)).getD default, ?_⟩
  simp only [Cache.GetRandom]
  rw [dif_neg h0]

/-- A successful GetRandom returns a record stored under its own ID, whose
ID is one of the candidates. -/
theorem getRandom_ok_spec {c : Cache} {ex : Option (List Int)} {k : Nat} {r : Repository}
    (hW : CacheWF c) (h : c.GetRandom ex k = Except.ok r) :
    r.id ∈ candidatesOf c ex ∧ c.data.lookup r.id = some r := by
  by_cases h0 : (candidatesOf c ex).length = 0
  · rw [getRandom_error_of_empty c ex k (List.length_eq_zero.mp h0)] at h
    simp at h
  · simp only [Cache.GetRandom] at h
    rw [dif_neg h0] at h
    have hmem := List.get_mem (candidatesOf c ex) (k % (candidatesOf c ex).length)
      (Nat.mod_lt k (Nat.pos_of_ne_zero h0))
    obtain ⟨r₀, hr₀⟩ := Option.isSome_iff_exists.mp ((hW.mem_ids_iff _).mp (candidates_subset hmem))
    have hinj : (c.data.lookup ((candidatesOf c ex).get
        ⟨k % (candidatesOf c ex).length, Nat.mod_lt k (Nat.pos_of_ne_zero h0)⟩)).getD default = r := by
      simpa using h
    rw [hr₀] at hinj
    simp only [Option.getD_some] at hinj
    subst hinj
    have hid₀ := hW.lookup_rec_id hr₀
    rw [hid₀]
    exact ⟨hmem, hr₀⟩

/-- Excluding one candidate shrinks the candidate slice by exactly one. -/
theorem candidates_cons_length {c : Cache} (hW : CacheWF c) {l : List Int} {id₀ : Int}
    (hmem : id₀ ∈ candidatesOf c (some l)) :
    (candidatesOf c (some (id₀ :: l))).length + 1 = (candidatesOf c (some l)).length := by
  have hnd : (candidatesOf c (some l)).Nodup := candidates_nodup hW (some l)
  have heq : candidatesOf c (some (id₀ :: l)) =
      List.filter (fun x => x != id₀) (candidatesOf c (some l)) := by
    simp only [candidatesOf]
    rw [List.filter_filter]
    apply List.filter_congr
    intro x hx
    by_cases hxe : x = id₀
    · subst hxe
      simp [List.contains_cons]
    · simp [List.contains_cons, Bool.not_or, hxe, beq_eq_false_iff_ne.mpr hxe]
  have hpos : 0 < (candidatesOf c (some l)).length := by
    apply List.length_pos.mpr
    intro hh
    rw [hh] at hmem
    cases hmem
  rw [heq, ← List.Nodup.erase_eq_filter hnd id₀, List.length_erase_of_mem hmem]
  omega

/-- Outcome shape of one collection step: either the result list, seen set
and cache are untouched (emit, done, duplicate drop, stutter), or one
record is accepted: appended to the results, added to the cache, marked
seen in unique mode, with the stop flag recomputed. -/
theorem step_cases {count : Int} {st st' : LoopState} {e : ChEvent}
    (h : step count st e = some st') :
    (st'.repos = st.repos ∧ st'.seen = st.seen ∧ st'.cache = st.cache ∧
      (st'.stopped = st.stopped ∨ st'.stopped = true)) ∨
    (∃ r, st.stopped = false ∧ st'.repos = st.repos ++ [r] ∧
      st'.cache = st.cache.Add r ∧
      st'.stopped = (((st.repos ++ [r]).length : Int) == count) ∧
      ((st.seen = none ∧ st'.seen = none) ∨
        (∃ l, st.seen = some l ∧ l.contains r.id = false ∧ st'.seen = some (r.id :: l)))) := by
  cases e with
  | emit r =>
    simp only [step] at h
    by_cases h0 : st.pending = 0
    · simp [h0] at h
    · rw [if_neg h0] at h
      by_cases h1 : st.chan.length < count.toNat
      · rw [if_pos h1] at h
        obtain rfl := Option.some.inj h
        left
        exact ⟨rfl, rfl, rfl, Or.inl rfl⟩
      · rw [if_neg h1] at h
        simp at h
  | done =>
    simp only [step] at h
    obtain rfl := Option.some.inj h
    left
    exact ⟨rfl, rfl, rfl, Or.inr rfl⟩
  | deliver =>
    simp only [step] at h
    split at h
    next hs =>
      obtain rfl := Option.some.inj h
      left
      exact ⟨rfl, rfl, rfl, Or.inl rfl⟩
    next hs =>
      split at h
      next hch => simp at h
      next r rest hch =>
        split at h
        next l hseen =>
          split at h
          next hdup =>
            obtain rfl := Option.some.inj h
            left
            exact ⟨rfl, rfl, rfl, Or.inl rfl⟩
          next hdup =>
            obtain rfl := Option.some.inj h
            right
            refine ⟨r, by simpa using hs, rfl, rfl, rfl,
              Or.inr ⟨l, hseen, by simpa using hdup, rfl⟩⟩
        next hseen =>
          obtain rfl := Option.some.inj h
          right
          exact ⟨r, by simpa using hs, rfl, rfl, rfl, Or.inl ⟨hseen, hseen⟩⟩

/-- Any property preserved by every feasible step is preserved by the
whole collection loop. -/
theorem collect_inv (count : Int) (P : LoopState → Prop)
    (hstep : ∀ st e st', P st → step count st e = some st' → P st') :
    ∀ (events : List ChEvent) (st st' : LoopState),
      P st → collect count st events = some st' → P st' := by
  intro events
  induction events with
  | nil =>
    intro st st' hP h
    simp only [collect] at h
    obtain rfl := Option.some.inj h
    exact hP
  | cons e es ih =>
    intro st st' hP h
    simp only [collect] at h
    cases hst : step count st e with
    | none => rw [hst] at h; simp at h
    | some st₁ =>
      rw [hst] at h
      exact ih st₁ st' (hstep st e st₁ hP hst) h

/-- Length invariant of the collection loop: while the loop runs the
result list is strictly short of the count, and it never exceeds it. -/
def LenInv (count : Int) (st : LoopState) : Prop :=
  (st.stopped = false → (st.repos.length : Int) < count) ∧ (st.repos.length : Int) ≤ count

theorem step_len {count : Int} {st st' : LoopState} {e : ChEvent}
    (hP : LenInv count st) (h : step count st e = some st') : LenInv count st' := by
  rcases step_cases h with ⟨hr, _, _, hs⟩ | ⟨r, hs0, hr, _, hstop, _⟩
  · constructor
    · intro hf
      rcases hs with hs | hs
      · rw [hr]
        exact hP.1 (hs ▸ hf)
      · cases hs.symm.trans hf
    · rw [hr]
      exact hP.2
  · have hlt : (st.repos.length : Int) < count := hP.1 hs0
    constructor
    · intro hf
      rw [hstop] at hf
      have hne : ((st.repos ++ [r]).length : Int) ≠ count := beq_eq_false_iff_ne.mp hf
      rw [hr]
      simp only [List.length_append, List.length_singleton] at hne ⊢
      push_cast at hne ⊢
      omega
    · rw [hr]
      simp only [List.length_append, List.length_singleton]
      push_cast
      omega

/-- With no worker pending and an empty channel, the loop can only stop:
nothing is received, cached, or appended. -/
theorem step_zero {count : Int} {st st' : LoopState} {e : ChEvent}
    (hz : st.pending = 0 ∧ st.chan = []) (h : step count st e = some st') :
    st'.pending = 0 ∧ st'.chan = [] ∧ st'.repos = st.repos ∧ st'.cache = st.cache ∧
      st'.seen = st.seen := by
  cases e with
  | emit r => simp [step, hz.1] at h
  | done =>
    simp only [step] at h
    obtain rfl := Option.some.inj h
    exact ⟨hz.1, hz.2, rfl, rfl, rfl⟩
  | deliver =>
    simp only [step] at h
    by_cases hs : st.stopped = true
    · rw [if_pos hs] at h
      obtain rfl := Option.some.inj h
      exact ⟨hz.1, hz.2, rfl, rfl, rfl⟩
    · rw [if_neg hs, hz.2] at h
      simp at h

/-- A nonpositive count spawns no workers, so the loop delivers nothing:
the state can only acquire the stop flag. -/
theorem collect_zero {count : Int} {c₀ : Cache} {unique : Bool} {events : List ChEvent}
    {st' : LoopState} (hc : count ≤ 0)
    (h : collect count (initState c₀ unique count) events = some st') :
    st'.repos = [] ∧ st'.cache = c₀ ∧ st'.seen = (initState c₀ unique count).seen := by
  have h0 : (initState c₀ unique count).pending = 0 := by
    simp only [initState]
    omega
  have hall := collect_inv count
    (fun st => st.pending = 0 ∧ st.chan = [] ∧ st.repos = [] ∧ st.cache = c₀ ∧
      st.seen = (initState c₀ unique count).seen)
    (fun st e st₁ hP hstep => by
      obtain ⟨hp, hch, hrp, hcache, hseen⟩ := hP
      obtain ⟨hp', hch', hrp', hcache', hseen'⟩ := step_zero ⟨hp, hch⟩ hstep
      exact ⟨hp', hch', hrp'.trans hrp, hcache'.trans hcache, hseen'.trans hseen⟩)
    events (initState c₀ unique count) st' ⟨h0, rfl, rfl, rfl, rfl⟩ h
  exact ⟨hall.2.2.1, hall.2.2.2.1, hall.2.2.2.2⟩

/-- Unique-mode invariant: the seen map exists, the result has no repeated
IDs, and every result ID is marked seen. -/
def UniqueInv (st : LoopState) : Prop :=
  ∃ l, st.seen = some l ∧ (st.repos.map Repository.id).Nodup ∧ ∀ r ∈ st.repos, r.id ∈ l

theorem step_unique {count : Int} {st st' : LoopState} {e : ChEvent}
    (hP : UniqueInv st) (h : step count st e = some st') : UniqueInv st' := by
  obtain ⟨l, hseen, hnd, hmem⟩ := hP
  rcases step_cases h with ⟨hr, hsn, _, _⟩ | ⟨r, _, hr, _, _, hcase⟩
  · exact ⟨l, hsn.trans hseen, hr ▸ hnd, hr ▸ hmem⟩
  · rcases hcase with ⟨hnone, _⟩ | ⟨l', hsome, hnc, hsn'⟩
    · rw [hseen] at hnone
      cases hnone
    · have hinj : l = l' := by
        rw [hseen] at hsome
        exact Option.some.inj hsome
      subst hinj
      refine ⟨r.id :: l, hsn', ?_, ?_⟩
      · rw [hr]
        simp only [List.map_append, List.map_cons, List.map_nil]
        rw [List.nodup_append]
        refine ⟨hnd, by simp, ?_⟩
        intro a ha hb
        simp only [List.mem_singleton] at hb
        subst hb
        obtain ⟨r', hr', hid⟩ := List.mem_map.mp ha
        have hinl : r.id ∈ l := hid ▸ hmem r' hr'
        have hnc' : List.elem r.id l = false := hnc
        rw [List.elem_iff.mpr hinl] at hnc'
        simp at hnc'
      · intro r' hr'
        rw [hr] at hr'
        rcases List.mem_append.mp hr' with h1 | h1
        · exact List.mem_cons_of_mem _ (hmem r' h1)
        · simp only [List.mem_singleton] at h1
          subst h1
          exact List.mem_cons_self _ _

theorem step_WF {count : Int} {st st' : LoopState} {e : ChEvent}
    (hP : CacheWF st.cache) (h : step count st e = some st') : CacheWF st'.cache := by
  rcases step_cases h with ⟨_, _, hc, _⟩ | ⟨r, _, _, hc, _, _⟩
  · rw [hc]
    exact hP
  · rw [hc]
    exact Add_WF hP r

/-- Every record accepted into the result so far is bound in the cache. -/
def CachedInv (st : LoopState) : Prop :=
  ∀ r ∈ st.repos, (st.cache.data.lookup r.id).isSome = true

theorem step_cached {count : Int} {st st' : LoopState} {e : ChEvent}
    (hP : CachedInv st) (h : step count st e = some st') : CachedInv st' := by
  rcases step_cases h with ⟨hr, _, hc, _⟩ | ⟨r, _, hr, hc, _, _⟩
  · intro r' hr'
    rw [hr] at hr'
    rw [hc]
    exact hP r' hr'
  · intro r' hr'
    rw [hr] at hr'
    rw [hc]
    rcases List.mem_append.mp hr' with h1 | h1
    · obtain ⟨v, hv⟩ := Option.isSome_iff_exists.mp (hP r' h1)
      rw [Add_lookup_preserve r hv]
      rfl
    · simp only [List.mem_singleton] at h1
      subst h1
      exact Add_lookup_self st.cache r'

/-- Backfill appends at most `fuel` records. -/
theorem backfill_len {cache : Cache} {rand : Nat → Nat} {cancel : Nat → Bool} :
    ∀ (fuel i : Nat) (repos : List Repository) (seen : Option (List Int))
      (repos' : List Repository) (seen' : Option (List Int)),
      backfillLoop cache rand cancel fuel i repos seen = some (repos', seen') →
      repos'.length ≤ repos.length + fuel := by
  intro fuel
  induction fuel with
  | zero =>
    intro i repos seen repos' seen' h
    simp only [backfillLoop, Option.some.injEq, Prod.mk.injEq] at h
    obtain ⟨rfl, rfl⟩ := h
    omega
  | succ n ih =>
    intro i repos seen repos' seen' h
    simp only [backfillLoop] at h
    split at h
    · simp at h
    · split at h
      next e hg =>
        simp only [Option.some.injEq, Prod.mk.injEq] at h
        obtain ⟨rfl, rfl⟩ := h
        omega
      next r hg =>
        have hrec := ih (i + 1) (repos ++ [r]) (seen.map (fun l => r.id :: l)) repos' seen' h
        simp only [List.length_append, List.length_singleton] at hrec
        omega

/-- Backfill termination with the exact fill: when the cancel oracle stays
silent and the cache offers at least `fuel` candidates outside the seen
set, the loop appends exactly `fuel` records. -/
theorem backfill_fill {cache : Cache} {rand : Nat → Nat} {cancel : Nat → Bool}
    (hW : CacheWF cache) (hnc : ∀ j, cancel j = false) :
    ∀ (fuel i : Nat) (repos : List Repository) (seen : Option (List Int)),
      fuel ≤ (candidatesOf cache seen).length →
      ∃ repos' seen', backfillLoop cache rand cancel fuel i repos seen = some (repos', seen') ∧
        repos'.length = repos.length + fuel := by
  intro fuel
  induction fuel with
  | zero =>
    intro i repos seen hle
    exact ⟨repos, seen, by simp [backfillLoop], by omega⟩
  | succ n ih =>
    intro i repos seen hle
    have hne : candidatesOf cache seen ≠ [] := by
      intro hh
      rw [hh] at hle
      simp at hle
    obtain ⟨r, hr⟩ := getRandom_ok_of_nonempty cache seen (rand i) hne
    obtain ⟨hmem, hlook⟩ := getRandom_ok_spec hW hr
    have hle' : n ≤ (candidatesOf cache (seen.map (fun l => r.id :: l))).length := by
      cases seen with
      | none => exact Nat.le_of_succ_le hle
      | some l =>
        have hcnt := candidates_cons_length hW hmem
        show n ≤ (candidatesOf cache (some (r.id :: l))).length
        omega
    obtain ⟨repos', seen', hrec, hlen⟩ := ih (i + 1) (repos ++ [r])
      (seen.map (fun l => r.id :: l)) hle'
    refine ⟨repos', seen', ?_, ?_⟩
    · show backfillLoop cache rand cancel (n + 1) i repos seen = some (repos', seen')
      simp only [backfillLoop]
      rw [hnc i]
      rw [if_neg (by simp)]
      rw [hr]
      exact hrec
    · simp only [List.length_append, List.length_singleton] at hlen
      omega

/-- Backfill in unique mode keeps the result IDs free of duplicates. -/
theorem backfill_nodup {cache : Cache} {rand : Nat → Nat} {cancel : Nat → Bool}
    (hW : CacheWF cache) :
    ∀ (fuel i : Nat) (repos : List Repository) (l : List Int)
      (repos' : List Repository) (seen' : Option (List Int)),
      (repos.map Repository.id).Nodup → (∀ r ∈ repos, r.id ∈ l) →
      backfillLoop cache rand cancel fuel i repos (some l) = some (repos', seen') →
      (repos'.map Repository.id).Nodup := by
  intro fuel
  induction fuel with
  | zero =>
    intro i repos l repos' seen' hnd hmem h
    simp only [backfillLoop, Option.some.injEq, Prod.mk.injEq] at h
    obtain ⟨rfl, rfl⟩ := h
    exact hnd
  | succ n ih =>
    intro i repos l repos' seen' hnd hmem h
    simp only [backfillLoop] at h
    split at h
    · simp at h
    · split at h
      next e hg =>
        simp only [Option.some.injEq, Prod.mk.injEq] at h
        obtain ⟨rfl, rfl⟩ := h
        exact hnd
      next r hg =>
        obtain ⟨hrm, hlook⟩ := getRandom_ok_spec hW hg
        have hnotl : l.contains r.id = false := candidates_excluded hrm
        have hnd' : ((repos ++ [r]).map Repository.id).Nodup := by
          simp only [List.map_append, List.map_cons, List.map_nil]
          rw [List.nodup_append]
          refine ⟨hnd, by simp, ?_⟩
          intro a ha hb
          simp only [List.mem_singleton] at hb
          subst hb
          obtain ⟨r', hr', hid⟩ := List.mem_map.mp ha
          have hinl : r.id ∈ l := hid ▸ hmem r' hr'
          have hnc' : List.elem r.id l = false := hnotl
          rw [List.elem_iff.mpr hinl] at hnc'
          simp at hnc'
        have hmem' : ∀ r' ∈ repos ++ [r], r'.id ∈ r.id :: l := by
          intro r' hr'
          rcases List.mem_append.mp hr' with h1 | h1
          · exact List.mem_cons_of_mem _ (hmem r' h1)
          · simp only [List.mem_singleton] at h1
            subst h1
            exact List.mem_cons_self _ _
        exact ih (i + 1) (repos ++ [r]) (r.id :: l) repos' seen' hnd' hmem' h

/-- Records appended by backfill are all bound in the cache. -/
theorem backfill_cached {cache : Cache} {rand : Nat → Nat} {cancel : Nat → Bool}
    (hW : CacheWF cache) :
    ∀ (fuel i : Nat) (repos : List Repository) (seen : Option (List Int))
      (repos' : List Repository) (seen' : Option (List Int)),
      (∀ r ∈ repos, (cache.data.lookup r.id).isSome = true) →
      backfillLoop cache rand cancel fuel i repos seen = some (repos', seen') →
      ∀ r ∈ repos', (cache.data.lookup r.id).isSome = true := by
  intro fuel
  induction fuel with
  | zero =>
    intro i repos seen repos' seen' hall h
    simp only [backfillLoop, Option.some.injEq, Prod.mk.injEq] at h
    obtain ⟨rfl, rfl⟩ := h
    exact hall
  | succ n ih =>
    intro i repos seen repos' seen' hall h
    simp only [backfillLoop] at h
    split at h
    · simp at h
    · split at h
      next e hg =>
        simp only [Option.some.injEq, Prod.mk.injEq] at h
        obtain ⟨rfl, rfl⟩ := h
        exact hall
      next r hg =>
        obtain ⟨hrm, hlook⟩ := getRandom_ok_spec hW hg
        have hall' : ∀ r' ∈ repos ++ [r], (cache.data.lookup r'.id).isSome = true := by
          intro r' hr'
          rcases List.mem_append.mp hr' with h1 | h1
          · exact hall r' h1
          · simp only [List.mem_singleton] at h1
            subst h1
            rw [hlook]
            rfl
        exact ih (i + 1) (repos ++ [r]) (seen.map (fun l => r.id :: l)) repos' seen' hall' h

/-- Inversion of a responded run of the List handler: a feasible complete
collection phase followed by a completed backfill. -/
theorem runListC_responded {c₀ : Cache} {count : Int} {unique : Bool}
    {events : List ChEvent} {rand : Nat → Nat} {cancel : Nat → Bool}
    {repos : List Repository} {cache : Cache}
    (h : runListC c₀ count unique events rand cancel = some (ListResult.responded repos cache)) :
    ∃ st, ¬count < 0 ∧ collect count (initState c₀ unique count) events = some st ∧
      st.stopped = true ∧ cache = st.cache ∧
      ∃ seen', backfillLoop st.cache rand cancel (count - (st.repos.length : Int)).toNat
        0 st.repos st.seen = some (repos, seen') := by
  unfold runListC at h
  split at h
  · simp at h
  next hneg =>
    split at h
    · simp at h
    next st hcoll =>
      split at h
      next hstop =>
        split at h
        · simp at h
        next p hbf =>
          simp only [Option.some.injEq, ListResult.responded.injEq] at h
          obtain ⟨h1, h2⟩ := h
          refine ⟨st, hneg, hcoll, hstop, h2.symm, p.2, ?_⟩
          rw [← h1]
          exact hbf
      · simp at h

/-- Forward construction of a responded run. -/
theorem runListC_responds {c₀ : Cache} {count : Int} {unique : Bool}
    {events : List ChEvent} {rand : Nat → Nat} {cancel : Nat → Bool}
    {st : LoopState} {repos' : List Repository} {seen' : Option (List Int)}
    (hneg : ¬count < 0)
    (hcoll : collect count (initState c₀ unique count) events = some st)
    (hstop : st.stopped = true)
    (hbf : backfillLoop st.cache rand cancel (count - (st.repos.length : Int)).toNat
      0 st.repos st.seen = some (repos', seen')) :
    runListC c₀ count unique events rand cancel = some (ListResult.responded repos' st.cache) := by
  unfold runListC
  rw [if_neg hneg, hcoll]
  simp only
  rw [if_pos hstop, hbf]

/-- Concrete inputs used by the witnesses and counterexamples. -/
def strNeg1 : String := "-1"

def strNeg2 : String := "-2"

def str1 : String := "1"

def strX : String := "x"

def strA : String := "alpha"

def strB : String := "beta"

def repoPathBase : String := "/repository?"

def r1 : Repository := ⟨1, strX, 0⟩

def r1b : Repository := ⟨1, strA, 5⟩

def repoA : Repository := ⟨10, strA, 0⟩

def repoB : Repository := ⟨11, strB, 0⟩

def cacheAB : Cache := (NewCache.Add repoA).Add repoB

def stC4 : LoopState := ⟨[], some [], cacheAB, 2, [], true⟩

/-- Claim C1, counterexample: the claim says every parsed count ≤ 0,
including every negative value, yields an empty result list; but on count
parsed as -1 the handler panics at `make([]Repository, 0, count)` (a
negative capacity is a Go runtime panic), so no result list — empty or
otherwise — is produced. -/
theorem C1_counterexample :
    listCount (some strNeg1) = -1 ∧
    runList NewCache (some strNeg1) none [] (fun _ => 0) (fun _ => false)
      = some ListResult.panicked := by
  constructor
  · decide
  · decide

/-- Claim C1, amended: for parsed count ≥ 0 the response list length never
exceeds the count and count = 0 yields an empty list, while every negative
parsed count makes the handler panic (no response at all). -/
theorem C1_amended_thm (c₀ : Cache) (countQ uniqueQ : Option String) (events : List ChEvent)
    (rand : Nat → Nat) (cancel : Nat → Bool) :
    (∀ repos cache, runList c₀ countQ uniqueQ events rand cancel
        = some (ListResult.responded repos cache) →
      (0 ≤ listCount countQ → (repos.length : Int) ≤ listCount countQ) ∧
      (listCount countQ ≤ 0 → repos = [])) ∧
    (listCount countQ < 0 →
      runList c₀ countQ uniqueQ events rand cancel = some ListResult.panicked) := by
  constructor
  · intro repos cache h
    unfold runList at h
    obtain ⟨st, hneg, hcoll, hstop, hcache, seen', hbf⟩ := runListC_responded h
    constructor
    · intro h0
      rcases lt_or_eq_of_le h0 with hpos | hzero
      · have hinv := collect_inv (listCount countQ) (LenInv (listCount countQ))
          (fun s e s' hP hs => step_len hP hs) events _ st
          ⟨fun _ => by simpa [initState] using hpos, by simp [initState]; omega⟩ hcoll
        have hbl := backfill_len _ _ _ _ _ _ hbf
        have h2 := hinv.2
        omega
      · have hz := collect_zero (by omega) hcoll
        have hlen0 : st.repos.length = 0 := by rw [hz.1]; rfl
        have hbl := backfill_len _ _ _ _ _ _ hbf
        omega
    · intro h0
      have hz := collect_zero h0 hcoll
      have hlen0 : st.repos.length = 0 := by rw [hz.1]; rfl
      have hbl := backfill_len _ _ _ _ _ _ hbf
      have hrl : repos.length = 0 := by omega
      exact List.length_eq_zero.mp hrl
  · intro hneg
    unfold runList runListC
    rw [if_pos hneg]

/-- Claim C1, witness: the amended theorem applied at parsed count -2. -/
theorem C1_witness :
    runList NewCache (some strNeg2) none [] (fun _ => 0) (fun _ => false)
      = some ListResult.panicked :=
  (C1_amended_thm NewCache (some strNeg2) none [] (fun _ => 0) (fun _ => false)).2 (by decide)

/-- Claim C2: the claim says the permit pool of capacity 10 is built once
and shared globally, bounding in-flight upstream calls at 10 across the
whole service; but the source builds a fresh `sem` inside every List call,
so in the feasible interleaving `semTrace20` two concurrent requests hold
10 permits each — 20 upstream calls in flight, exceeding the capacity the
pool's own comment promises to enforce for the proxy. -/
theorem C2_bug_thm :
    (semRun semInit semTrace20).map (fun held => held 0 + held 1) = some 20 ∧
    semCap < 20 := by
  constructor
  · decide
  · decide

/-- Claim C3: when the request carries unique=true, a completed response
never contains two records with the same ID, across both the live
collection phase and the cache backfill phase. -/
theorem C3_thm (c₀ : Cache) (countQ : Option String) (events : List ChEvent)
    (rand : Nat → Nat) (cancel : Nat → Bool) (repos : List Repository) (cache : Cache)
    (hW : CacheWF c₀)
    (h : runList c₀ countQ (some trueStr) events rand cancel
      = some (ListResult.responded repos cache)) :
    (repos.map Repository.id).Nodup := by
  have huniq : uniqueOf (some trueStr) = true := by decide
  unfold runList at h
  obtain ⟨st, hneg, hcoll, hstop, hcache, seen', hbf⟩ := runListC_responded h
  have hinit : UniqueInv (initState c₀ (uniqueOf (some trueStr)) (listCount countQ)) :=
    ⟨[], by simp [initState, huniq], by simp [initState], by simp [initState]⟩
  have hu := collect_inv (listCount countQ) UniqueInv
    (fun s e s' hP hs => step_unique hP hs) events _ st hinit hcoll
  have hwf : CacheWF st.cache := collect_inv (listCount countQ) (fun s => CacheWF s.cache)
    (fun s e s' hP hs => step_WF hP hs) events _ st (by simpa [initState] using hW) hcoll
  obtain ⟨l, hseen, hnd, hmem⟩ := hu
  rw [hseen] at hbf
  exact backfill_nodup hwf _ _ _ _ _ _ hnd hmem hbf

/-- Claim C3, witness: a unique-mode run that accepts one record. -/
theorem C3_witness : (([r1].map Repository.id)).Nodup :=
  C3_thm NewCache none [ChEvent.emit r1, ChEvent.deliver] (fun _ => 0) (fun _ => false)
    [r1] (NewCache.Add r1) (by decide) (by decide)

/-- Claim C4: if the collection loop stops short of the count and the
cache offers at least the missing number of records outside the seen set,
then backfill (with the caller's own cancellation staying silent, the
proviso the spec itself states) extends the response to exactly the count. -/
theorem C4_thm (c₀ : Cache) (count : Int) (unique : Bool) (events : List ChEvent)
    (rand : Nat → Nat) (cancel : Nat → Bool) (st : LoopState)
    (hW : CacheWF c₀)
    (hcoll : collect count (initState c₀ unique count) events = some st)
    (hstop : st.stopped = true)
    (hshort : (st.repos.length : Int) < count)
    (hcand : count - (st.repos.length : Int) ≤ ((candidatesOf st.cache st.seen).length : Int))
    (hnc : ∀ i, cancel i = false) :
    ∃ repos' cache', runListC c₀ count unique events rand cancel
      = some (ListResult.responded repos' cache') ∧ (repos'.length : Int) = count := by
  have hneg : ¬count < 0 := by omega
  have hwf : CacheWF st.cache := collect_inv count (fun s => CacheWF s.cache)
    (fun s e s' hP hs => step_WF hP hs) events _ st (by simpa [initState] using hW) hcoll
  have hfle : (count - (st.repos.length : Int)).toNat ≤ (candidatesOf st.cache st.seen).length := by
    omega
  obtain ⟨repos', seen', hbf, hlen⟩ := backfill_fill hwf hnc
    ((count - (st.repos.length : Int)).toNat) 0 st.repos st.seen hfle
  refine ⟨repos', st.cache, runListC_responds hneg hcoll hstop hbf, ?_⟩
  omega

/-- Claim C4, witness: a cache holding two fresh records backfills a
count-2 request whose deadline fired before any live result. -/
theorem C4_witness :
    ∃ repos' cache', runListC cacheAB 2 true [ChEvent.done] (fun _ => 0) (fun _ => false)
      = some (ListResult.responded repos' cache') ∧ ((repos'.length : Int) = 2) :=
  C4_thm cacheAB 2 true [ChEvent.done] (fun _ => 0) (fun _ => false) stC4
    (by decide) (by decide) (by decide) (by decide) (by decide) (fun i => rfl)

/-- Claim C5: a completed request is written with status 200 and a body
whose repositories field is always an array (an empty result encodes as an
empty array, never null or absent); status 500 arises exactly when final
serialization fails. -/
theorem C5_thm (c₀ : Cache) (countQ uniqueQ : Option String) (events : List ChEvent)
    (rand : Nat → Nat) (cancel : Nat → Bool) (repos : List Repository) (cache : Cache)
    (mOk : Bool)
    (h : runList c₀ countQ uniqueQ events rand cancel = some (ListResult.responded repos cache)) :
    ((writeListResponse repos mOk).1 = 500 ↔ mOk = false) ∧
    ((writeListResponse repos mOk).1 = 200 ↔ mOk = true) ∧
    (mOk = true → (writeListResponse repos mOk).2 = some (listResponseJson repos) ∧
      ∃ elems, (listResponseJson repos).getField reposField = some (Json.arr elems) ∧
        (repos = [] → elems = [])) := by
  cases mOk with
  | false =>
    refine ⟨by simp [writeListResponse], by simp [writeListResponse], by simp⟩
  | true =>
    refine ⟨by simp [writeListResponse], by simp [writeListResponse], fun _ => ⟨rfl, ?_⟩⟩
    refine ⟨repos.map encodeRepository, ?_, fun hre => by simp [hre]⟩
    simp [listResponseJson, Json.getField, List.lookup]

/-- Claim C5, witness: the theorem applied to a completed one-record run
with failing serialization. -/
theorem C5_witness : ((writeListResponse [r1] false).1 = 500 ↔ false = false) :=
  (C5_thm NewCache none none [ChEvent.emit r1, ChEvent.deliver] (fun _ => 0) (fun _ => false)
    [r1] (NewCache.Add r1) false (by decide)).1

/-- Claim C6: Add is idempotent keyed by ID — re-adding a present ID
leaves the cache unchanged (hence its size) and keeps the first-inserted
record; the ids sequence never repeats an ID and indexes exactly the keys
of the map. -/
theorem C6_thm (c : Cache) (r r₂ : Repository) (hW : CacheWF c) :
    ((c.data.lookup r.id).isSome = true → c.Add r = c) ∧
    CacheWF (c.Add r) ∧
    (c.data.lookup r.id = none → (c.Add r).data.lookup r.id = some r) ∧
    (r₂.id = r.id → (c.Add r).Add r₂ = c.Add r ∧
      ((c.Add r).Add r₂).size = (c.Add r).size ∧
      (c.data.lookup r.id = none → ((c.Add r).Add r₂).data.lookup r.id = some r)) ∧
    (c.Add r).ids.Nodup ∧
    (∀ id, id ∈ (c.Add r).ids ↔ ((c.Add r).data.lookup id).isSome = true) := by
  have hWA : CacheWF (c.Add r) := Add_WF hW r
  have hAA : r₂.id = r.id → (c.Add r).Add r₂ = c.Add r := fun h12 => by
    apply Add_of_present
    rw [h12]
    exact Add_lookup_self c r
  refine ⟨fun hp => Add_of_present hp, hWA, fun hn => Add_lookup_absent hn, ?_, hWA.2.1, ?_⟩
  · intro h12
    refine ⟨hAA h12, by rw [hAA h12], fun hn => by rw [hAA h12]; exact Add_lookup_absent hn⟩
  · intro id
    exact hWA.mem_ids_iff id

/-- Claim C6, witness: re-adding ID 1 with different fields is a no-op. -/
theorem C6_witness : (NewCache.Add r1).Add r1b = NewCache.Add r1 :=
  ((C6_thm NewCache r1 r1b (by decide)).2.2.2.1 (by decide)).1

/-- Claim C7: GetRandom fails with the empty-condition error exactly when
no cached record survives the exclusion set (in particular on an empty
cache with no exclusion, without panicking), and on success returns a
record stored in the cache whose ID escapes the exclusion set. -/
theorem C7_thm (c : Cache) (ex : Option (List Int)) (k : Nat) (hW : CacheWF c) :
    ((∃ e, c.GetRandom ex k = Except.error e) ↔ candidatesOf c ex = []) ∧
    (∀ r, c.GetRandom ex k = Except.ok r →
      r.id ∈ c.ids ∧ c.data.lookup r.id = some r ∧
      ∀ l, ex = some l → l.contains r.id = false) ∧
    NewCache.GetRandom none 0 = Except.error noReposMsg := by
  refine ⟨⟨?_, ?_⟩, ?_, by rfl⟩
  · rintro ⟨e, he⟩
    by_cases hc : candidatesOf c ex = []
    · exact hc
    · obtain ⟨r, hr⟩ := getRandom_ok_of_nonempty c ex k hc
      rw [hr] at he
      simp at he
  · intro hc
    exact ⟨noReposMsg, getRandom_error_of_empty c ex k hc⟩
  · intro r hr
    obtain ⟨hmem, hlook⟩ := getRandom_ok_spec hW hr
    refine ⟨candidates_subset hmem, hlook, ?_⟩
    intro l hl
    subst hl
    exact candidates_excluded hmem

/-- Claim C7, witness: the empty cache with no exclusion. -/
theorem C7_witness : NewCache.GetRandom none 0 = Except.error noReposMsg :=
  (C7_thm NewCache none 0 (by decide)).2.2

/-- Claim C8, counterexample: the claim says every record emitted by a
worker is written into the Cache; here a worker emits r1 into the buffered
channel but the deadline breaks the loop before it is received, the
response backfills short, and the cache still lacks r1's ID. -/
theorem C8_counterexample :
    emittedOf [ChEvent.emit r1, ChEvent.done] = [r1] ∧
    runList NewCache (some str1) none [ChEvent.emit r1, ChEvent.done]
      (fun _ => 0) (fun _ => false) = some (ListResult.responded [] NewCache) ∧
    NewCache.data.lookup r1.id = none := by
  refine ⟨by decide, by decide, by decide⟩

/-- Claim C8, amended: every record the collection loop accepts into the
result is written into the Cache, and backfill records already reside
there, so every record of a completed response is bound in the final
cache; records emitted but never received before the loop exits (and
duplicate-ID deliveries in unique mode) are not added by this request. -/
theorem C8_amended_thm (c₀ : Cache) (countQ uniqueQ : Option String) (events : List ChEvent)
    (rand : Nat → Nat) (cancel : Nat → Bool) (repos : List Repository) (cache : Cache)
    (hW : CacheWF c₀)
    (h : runList c₀ countQ uniqueQ events rand cancel = some (ListResult.responded repos cache)) :
    ∀ r ∈ repos, (cache.data.lookup r.id).isSome = true := by
  unfold runList at h
  obtain ⟨st, hneg, hcoll, hstop, hcache, seen', hbf⟩ := runListC_responded h
  have hwf : CacheWF st.cache := collect_inv _ (fun s => CacheWF s.cache)
    (fun s e s' hP hs => step_WF hP hs) events _ st (by simpa [initState] using hW) hcoll
  have hcached : CachedInv st := collect_inv _ CachedInv
    (fun s e s' hP hs => step_cached hP hs) events _ st
    (by intro r hr; simp [initState] at hr) hcoll
  subst hcache
  exact backfill_cached hwf _ _ _ _ _ _ hcached hbf

/-- Claim C8, witness: the accepted record of a one-record run is bound in
the final cache. -/
theorem C8_witness : (((NewCache.Add r1).data.lookup r1.id).isSome = true) :=
  C8_amended_thm NewCache none none [ChEvent.emit r1, ChEvent.deliver]
    (fun _ => 0) (fun _ => false) [r1] (NewCache.Add r1) (by decide) (by decide) r1 (by simp)

/-- Claim C9: count defaults to 1 when absent or unparsable, timeout
defaults to 5 seconds when absent or unparsable, and deduplication is
enabled exactly when the unique parameter is the literal string true. -/
theorem C9_thm (s : String) (parseDuration : String → Option Int) (q : Option String) :
    listCount none = 1 ∧
    (goAtoi s = none → listCount (some s) = 1) ∧
    (parseDuration emptyStr = none → listTimeout none parseDuration = fiveSecondsNs) ∧
    (parseDuration s = none → listTimeout (some s) parseDuration = fiveSecondsNs) ∧
    (uniqueOf q = true ↔ getQuery q = trueStr) := by
  refine ⟨by decide, ?_, ?_, ?_, ?_⟩
  · intro hs
    simp [listCount, getQuery, hs]
  · intro hp
    simp [listTimeout, getQuery, hp]
  · intro hp
    simp [listTimeout, getQuery, hp]
  · unfold uniqueOf
    exact beq_iff_eq

/-- Claim C9, witness: the defaults at concrete unparsable and absent
query values. -/
theorem C9_witness :
    listCount none = 1 ∧ listCount (some strX) = 1 ∧
    listTimeout none (fun _ => none) = fiveSecondsNs ∧
    listTimeout (some strX) (fun _ => none) = fiveSecondsNs ∧
    (uniqueOf none = true ↔ getQuery none = trueStr) := by
  have h := C9_thm strX (fun _ => none) none
  exact ⟨h.1, h.2.1 (by decide), h.2.2.1 rfl, h.2.2.2.1 rfl, h.2.2.2.2⟩

/-- Claim C10: every upstream fetch of queryCall requests the backend path
with the fixed fault-injection query failRatio=0.7 appended — the URL is
the host followed by that constant suffix for every host, with no way to
vary it per request. -/
theorem C10_thm (host : String) :
    queryCallURL host = host ++ repoPath ∧
    failRatioQuery.data <:+ (queryCallURL host).data := by
  refine ⟨rfl, ?_⟩
  have h1 : failRatioQuery.data <:+ repoPath.data := ⟨repoPathBase.data, by decide⟩
  have h2 : repoPath.data <:+ (queryCallURL host).data := by
    rw [show queryCallURL host = host ++ repoPath from rfl, String.data_append]
    exact List.suffix_append _ _
  exact h1.trans h2
